import Mathlib

/-!
Verification of the binary/string cast kernels of
`cpp/src/arrow/compute/kernels/scalar_cast_string.cc` against their
natural-language specification.

The source file is shallowly embedded: each `BinaryToBinaryCastExec`
specialization and `CastBinaryToBinaryOffsets` specialization becomes an
executable Lean function over explicit list-based array representations.
Machine integers are modelled as `Int` with explicit two's-complement
wrapping (`wrap32`, `wrap64`) exactly where the C++ performs a
`static_cast` to a narrower signed type.  Fallible code returns
`Except Err`.
-/

namespace ArrowCast

/-- A byte of a data buffer (a value 0..255 where relevant). -/
abbrev Byte := Nat

/-- `BinaryViewType::kInlineSize`: maximal byte length stored inline in a view record. -/
def kInlineSize : Nat := 12

/-- `BinaryViewType::kPrefixSize`: number of prefix bytes stored in a reference view. -/
def kPrefixSize : Nat := 4

/-- `std::numeric_limits<int32_t>::max()`. -/
def int32Max : Int := 2147483647

/-- `std::numeric_limits<int64_t>::max()`. -/
def int64Max : Int := 9223372036854775807

/-- Two's-complement wrapping of an integer into the range of `int32_t`,
the effect of `static_cast<int32_t>` on an out-of-range value. -/
def wrap32 (x : Int) : Int := (x + 2147483648) % 4294967296 - 2147483648

/-- Two's-complement wrapping of an integer into the range of `int64_t`. -/
def wrap64 (x : Int) : Int :=
  (x + 9223372036854775808) % 18446744073709551616 - 9223372036854775808

/-- Wrapping for the destination offset width: 64-bit when `wide`, else 32-bit. -/
def wrapW (wide : Bool) (x : Int) : Int := if wide then wrap64 x else wrap32 x

/-- `std::numeric_limits<offset_type>::max()` for the offset width selected by `wide`. -/
def kMaxOffset (wide : Bool) : Int := if wide then int64Max else int32Max

/-- Error kinds surfaced by the cast kernels (`Status::Invalid`,
`Status::CapacityError`); the message text is carried verbatim. -/
inductive Err where
  | invalid (msg : String)
  | capacity (msg : String)
deriving Repr, DecidableEq

/-- Whether a result failed with a `CapacityError`. -/
def failsCapacity {α : Type} : Except Err α → Bool
  | .error (.capacity _) => true
  | _ => false

/-- A buffer handle of a destination array: either the identical underlying
allocation as a source buffer (zero-copy sharing) or a freshly allocated,
exclusively owned buffer. -/
inductive BufRef (α : Type) where
  | shared (val : α)
  | fresh (val : α)
deriving Repr, DecidableEq

/-- The byte/offset content a buffer handle resolves to. -/
def BufRef.val {α : Type} : BufRef α → α
  | .shared b => b
  | .fresh b => b

/-- `data[start : start+len]`, the bytes a `memcpy(dst, data + start, len)` reads. -/
def sliceBytes (data : List Byte) (start len : Nat) : List Byte :=
  (data.drop start).take len

-- ----------------------------------------------------------------------
-- Offset-width conversion (`CastBinaryToBinaryOffsets`)

/-- `CastBinaryToBinaryOffsets<int64_t, int32_t>` (downcast): `off` is the
window `input_offsets[0..N]` of `N+1` 64-bit offsets.  The last offset is
compared against `int32_t`'s maximum; on overflow the cast fails with
`Status::Invalid` naming both types, otherwise every offset is narrowed by
`CastInts` (a per-value `static_cast<int32_t>`). -/
def castOffsets64to32 (off : List Int) (srcName dstName : String) :
    Except Err (List Int) :=
  if int32Max < off.getD (off.length - 1) 0 then
    .error (.invalid ("Failed casting from " ++ srcName ++ " to " ++ dstName ++
      ": input array too large"))
  else
    .ok (off.map wrap32)

theorem wrap32_eq_self {x : Int} (h0 : -2147483648 ≤ x) (h1 : x ≤ int32Max) :
    wrap32 x = x := by
  unfold wrap32
  rw [Int.emod_eq_of_lt (by omega) (by simp only [int32Max] at h1; omega)]
  omega

theorem wrap64_eq_self {x : Int} (h0 : -9223372036854775808 ≤ x)
    (h1 : x ≤ int64Max) : wrap64 x = x := by
  unfold wrap64
  rw [Int.emod_eq_of_lt (by omega) (by simp only [int64Max] at h1; omega)]
  omega

theorem wrapW_eq_self {wide : Bool} {x : Int} (h0 : 0 ≤ x)
    (h1 : x ≤ kMaxOffset wide) : wrapW wide x = x := by
  cases wide <;> simp only [wrapW, kMaxOffset, if_true, if_false, Bool.false_eq_true,
    int32Max, int64Max] at *
  · exact wrap32_eq_self (by omega) h1
  · exact wrap64_eq_self (by omega) h1

/-- C1 (as stated) is false: the downcast overflow failure is a
`Status::Invalid`, not a `CapacityError`.  At the concrete input
`[0, 2^31]` (final offset one past the 32-bit maximum) the conversion
fails, but not with a capacity error. -/
theorem c1_counterexample :
    (castOffsets64to32 [0, 2147483648] "large_binary" "binary").isOk = false ∧
    failsCapacity (castOffsets64to32 [0, 2147483648] "large_binary" "binary") = false := by
  constructor <;> rfl

/-- C1 (amended): for a 64-bit offset window whose values are non-negative
and bounded by the final offset (offsets are non-decreasing), if the final
offset exceeds the 32-bit maximum the conversion fails with `Invalid`
reporting the source and destination type names; if the final offset is at
most the maximum (in particular, exactly equal to it) the conversion
succeeds and reproduces the offsets exactly. -/
theorem c1_amended (off : List Int) (srcName dstName : String)
    (hbound : ∀ x ∈ off, 0 ≤ x ∧ x ≤ off.getD (off.length - 1) 0) :
    (int32Max < off.getD (off.length - 1) 0 →
      castOffsets64to32 off srcName dstName =
        .error (.invalid ("Failed casting from " ++ srcName ++ " to " ++ dstName ++
          ": input array too large"))) ∧
    (off.getD (off.length - 1) 0 ≤ int32Max →
      castOffsets64to32 off srcName dstName = .ok off) := by
  constructor
  · intro hgt
    unfold castOffsets64to32
    rw [if_pos hgt]
  · intro hle
    unfold castOffsets64to32
    rw [if_neg (by omega)]
    congr 1
    have hmap : ∀ (l : List Int), (∀ x ∈ l, wrap32 x = x) → l.map wrap32 = l := by
      intro l hl
      induction l with
      | nil => rfl
      | cons a t ih =>
        simp only [List.map_cons, hl a (by simp)]
        rw [ih (fun x hx => hl x (by simp [hx]))]
    exact hmap off fun x hx =>
      wrap32_eq_self (by have := (hbound x hx).1; omega)
        (le_trans (hbound x hx).2 hle)

/-- Witness for `c1_amended`: a window whose final offset is exactly the
32-bit maximum succeeds, and one just past it fails with `Invalid`. -/
theorem c1_amended_witness :
    castOffsets64to32 [0, 2147483647] "large_binary" "binary" = .ok [0, 2147483647] ∧
    castOffsets64to32 [0, 2147483648] "large_binary" "binary" =
      .error (.invalid ("Failed casting from large_binary to binary" ++
        ": input array too large")) := by
  constructor
  · exact (c1_amended [0, 2147483647] "large_binary" "binary"
      (by intro x hx; fin_cases hx <;> constructor <;> decide)).2 (by decide)
  · exact (c1_amended [0, 2147483648] "large_binary" "binary"
      (by intro x hx; fin_cases hx <;> constructor <;> decide)).1 (by decide)

-- ----------------------------------------------------------------------
-- Logical slots of an offset-layout array

/-- The logical slots of an offset-layout array (data model): slot `i`
holds `data[offset[i] : offset[i+1]]` when valid, nothing when null.  This
is the sequence of values `VisitArraySpanInline` / `ArraySpanVisitor`
deliver to per-slot visitors such as `Utf8Validator`. -/
def decodeOffsets : List Bool → List Int → List Byte → List (Option (List Byte))
  | [], _, _ => []
  | b :: bs, a :: c :: off, data =>
    (if b then some (sliceBytes data a.toNat (c - a).toNat) else none) ::
      decodeOffsets bs (c :: off) data
  | _ :: _, _, _ => []

-- ----------------------------------------------------------------------
-- (Offset string | String view) -> Fixed

/-- `BinaryToBinaryCastExec` for (offset string | string view) ->
`FixedSizeBinaryType`: `slots` are the logical slots delivered by
`VisitArraySpanInline<I>` (resolved bytes for valid slots, `none` for
nulls).  A valid slot whose byte length differs from the destination width
fails with `Status::Invalid` naming both types; otherwise the bytes are
appended to a freshly built fixed-width array; null slots are appended as
null with no length check. -/
def binaryToFixed (width : Nat) (srcName dstName : String) :
    List (Option (List Byte)) → Except Err (List (Option (List Byte)))
  | [] => .ok []
  | none :: rest =>
    (binaryToFixed width srcName dstName rest).map (fun r => none :: r)
  | some s :: rest =>
    if s.length ≠ width then
      .error (.invalid ("Failed casting from " ++ srcName ++ " to " ++ dstName ++
        ": widths must match"))
    else (binaryToFixed width srcName dstName rest).map (fun r => some s :: r)

/-- C3: casting offset/view slots to fixed width `W` fails with `Invalid`
(naming both types) as soon as a prefix of width-conforming slots is
followed by a valid slot of a different length; if every valid slot has
length exactly `W` the conversion succeeds, copying the bytes slot-by-slot
(null slots pass through as null, with no length check). -/
theorem c3_width_mismatch (width : Nat) (srcName dstName : String)
    (slots : List (Option (List Byte))) :
    ((∀ s ∈ slots.filterMap id, s.length = width) →
       binaryToFixed width srcName dstName slots = .ok slots) ∧
    (∀ p s rest, slots = p ++ some s :: rest →
       (∀ t ∈ p.filterMap id, t.length = width) → s.length ≠ width →
       binaryToFixed width srcName dstName slots =
         .error (.invalid ("Failed casting from " ++ srcName ++ " to " ++ dstName ++
           ": widths must match"))) := by
  constructor
  · intro hall
    induction slots with
    | nil => rfl
    | cons hd tl ih =>
      cases hd with
      | none =>
        have h2 := ih (by intro s hs; exact hall s (by simpa using hs))
        simp only [binaryToFixed]
        rw [h2]
        rfl
      | some s =>
        have hs : s.length = width := hall s (by simp)
        have h2 := ih (by intro t ht; exact hall t (by simp [ht]))
        simp only [binaryToFixed, hs, ne_eq, not_true_eq_false, if_false]
        rw [h2]
        rfl
  · intro p s rest heq hpre hs
    subst heq
    induction p with
    | nil =>
      simp only [List.nil_append, binaryToFixed, if_pos hs]
    | cons hd tl ih =>
      cases hd with
      | none =>
        have h2 := ih (by intro t ht; exact hpre t (by simpa using ht))
        simp only [List.cons_append, binaryToFixed]
        rw [List.append_eq, h2]
        rfl
      | some t =>
        have ht : t.length = width := hpre t (by simp)
        have h2 := ih (by intro u hu; exact hpre u (by simp [hu]))
        simp only [List.cons_append, binaryToFixed, ht, ne_eq, not_true_eq_false,
          if_false]
        rw [List.append_eq, h2]
        rfl

/-- Witness for `c3_width_mismatch`: the spec example, strings
`["ab", "abc", "de"]` cast to fixed width 2, fails on the second element;
`["ab", "cd"]` succeeds. -/
theorem c3_width_mismatch_witness :
    binaryToFixed 2 "binary" "fixed_size_binary[2]"
        [some [97, 98], some [97, 98, 99], some [100, 101]] =
      .error (.invalid ("Failed casting from binary to fixed_size_binary[2]" ++
        ": widths must match")) ∧
    binaryToFixed 2 "binary" "fixed_size_binary[2]" [some [97, 98], none, some [99, 100]] =
      .ok [some [97, 98], none, some [99, 100]] := by
  constructor
  · exact (c3_width_mismatch 2 "binary" "fixed_size_binary[2]"
      [some [97, 98], some [97, 98, 99], some [100, 101]]).2
      [some [97, 98]] [97, 98, 99] [some [100, 101]] rfl
      (by intro t ht; fin_cases ht; rfl) (by decide)
  · exact (c3_width_mismatch 2 "binary" "fixed_size_binary[2]"
      [some [97, 98], none, some [99, 100]]).1
      (by intro t ht; fin_cases ht <;> rfl)

-- ----------------------------------------------------------------------
-- UTF-8 guard

/-- A UTF-8 continuation byte, `0x80..0xBF`. -/
def contByte (b : Byte) : Bool := 128 ≤ b && b ≤ 191

/-- Modelled from the spec: UTF-8 well-formedness as decided by
`util::ValidateUTF8Inline` (implemented in `arrow/util/utf8_internal.h`,
which is not under `src/`): one-byte sequences are `0x00..0x7F`, two-byte
sequences `0xC2..0xDF` plus a continuation byte, three- and four-byte
sequences per RFC 3629 with no overlong forms, no surrogates and a maximum
of U+10FFFF. -/
def validUTF8 : List Byte → Bool
  | [] => true
  | b :: rest =>
    if b ≤ 127 then validUTF8 rest
    else if 194 ≤ b && b ≤ 223 then
      match rest with
      | c :: r => contByte c && validUTF8 r
      | [] => false
    else if b = 224 then
      match rest with
      | c :: e :: r => (160 ≤ c && c ≤ 191) && contByte e && validUTF8 r
      | _ => false
    else if 225 ≤ b && b ≤ 236 then
      match rest with
      | c :: e :: r => contByte c && contByte e && validUTF8 r
      | _ => false
    else if b = 237 then
      match rest with
      | c :: e :: r => (128 ≤ c && c ≤ 159) && contByte e && validUTF8 r
      | _ => false
    else if 238 ≤ b && b ≤ 239 then
      match rest with
      | c :: e :: r => contByte c && contByte e && validUTF8 r
      | _ => false
    else if b = 240 then
      match rest with
      | c :: e :: f :: r =>
        (144 ≤ c && c ≤ 191) && contByte e && contByte f && validUTF8 r
      | _ => false
    else if 241 ≤ b && b ≤ 243 then
      match rest with
      | c :: e :: f :: r => contByte c && contByte e && contByte f && validUTF8 r
      | _ => false
    else if b = 244 then
      match rest with
      | c :: e :: f :: r =>
        (128 ≤ c && c ≤ 143) && contByte e && contByte f && validUTF8 r
      | _ => false
    else false

/-- `Utf8Validator` driven by `ArraySpanVisitor::Visit`: slots are visited
in order; a null slot is always accepted (`VisitNull`); the first valid
slot whose bytes are not well-formed UTF-8 aborts the whole conversion
with `Status::Invalid("Invalid UTF8 payload")`. -/
def utf8GuardSlots : List (Option (List Byte)) → Except Err Unit
  | [] => .ok ()
  | none :: rest => utf8GuardSlots rest
  | some s :: rest =>
    if validUTF8 s then utf8GuardSlots rest
    else .error (.invalid "Invalid UTF8 payload")

theorem utf8GuardSlots_err (slots : List (Option (List Byte)))
    (h : ∃ s, some s ∈ slots ∧ validUTF8 s = false) :
    utf8GuardSlots slots = .error (.invalid "Invalid UTF8 payload") := by
  induction slots with
  | nil => obtain ⟨s, hs, _⟩ := h; simp at hs
  | cons hd tl ih =>
    obtain ⟨s, hs, hbad⟩ := h
    cases hd with
    | none =>
      exact (by simpa [utf8GuardSlots] using ih ⟨s, by simpa using hs, hbad⟩)
    | some t =>
      by_cases hv : validUTF8 t
      · have hne : s ≠ t := fun he => by rw [he, hv] at hbad; cases hbad
        have : some s ∈ tl := by
          rcases List.mem_cons.mp hs with h1 | h1
          · cases hne (by injection h1)
          · exact h1
        simpa [utf8GuardSlots, hv] using ih ⟨s, this, hbad⟩
      · simp [utf8GuardSlots, hv]

theorem utf8GuardSlots_ok (slots : List (Option (List Byte)))
    (h : ∀ s, some s ∈ slots → validUTF8 s = true) :
    utf8GuardSlots slots = .ok () := by
  induction slots with
  | nil => rfl
  | cons hd tl ih =>
    cases hd with
    | none => simpa [utf8GuardSlots] using ih (fun s hs => h s (by simp [hs]))
    | some t =>
      have := h t (by simp)
      simpa [utf8GuardSlots, this] using ih (fun s hs => h s (by simp [hs]))

-- ----------------------------------------------------------------------
-- Offset string -> Offset string

/-- A destination array in offset layout: validity, the `N+1` destination
offsets and the data buffer, the latter two tagged shared (zero-copy) or
freshly allocated. -/
structure OffsetArr where
  validity : List Bool
  offsets : BufRef (List Int)
  dataBuf : BufRef (List Byte)
deriving Repr, DecidableEq

/-- `BinaryToBinaryCastExec` for offset string -> offset string: when the
destination type requires UTF-8 and the source does not already guarantee
it, the UTF-8 guard runs first unless `allow_invalid_utf8`; then
`ZeroCopyCastExec` shares every buffer and `CastBinaryToBinaryOffsets`
rewrites the offsets: a no-op for equal widths (buffers stay shared), an
exact per-value widening for 32->64, and the checked narrowing
`castOffsets64to32` for 64->32. -/
def binaryToBinaryOO (srcUtf8 dstUtf8 allowInvalidUtf8 srcWide dstWide : Bool)
    (v : List Bool) (off : List Int) (data : List Byte)
    (srcName dstName : String) : Except Err OffsetArr :=
  match (if !srcUtf8 && dstUtf8 && !allowInvalidUtf8 then
           utf8GuardSlots (decodeOffsets v off data) else .ok ()) with
  | .error e => .error e
  | .ok _ =>
    if srcWide = dstWide then .ok ⟨v, .shared off, .shared data⟩
    else if srcWide = false then .ok ⟨v, .fresh off, .shared data⟩
    else
      match castOffsets64to32 off srcName dstName with
      | .error e => .error e
      | .ok newOff => .ok ⟨v, .fresh newOff, .shared data⟩

/-- C4: casting a non-UTF-8 source to a UTF-8 destination with
`allow_invalid_utf8 = false` validates the slots and fails with `Invalid`
when some valid slot is not well-formed UTF-8 (nulls are always accepted:
with every valid slot well-formed the same-width cast succeeds sharing all
buffers); with `allow_invalid_utf8 = true` no validation occurs and the
same-width cast always succeeds with the raw bytes shared unchanged. -/
theorem c4_utf8_gate (srcWide dstWide : Bool) (v : List Bool) (off : List Int)
    (data : List Byte) (srcName dstName : String) :
    ((∃ s, some s ∈ decodeOffsets v off data ∧ validUTF8 s = false) →
       binaryToBinaryOO false true false srcWide dstWide v off data srcName dstName =
         .error (.invalid "Invalid UTF8 payload")) ∧
    (binaryToBinaryOO false true true srcWide srcWide v off data srcName dstName =
       .ok ⟨v, .shared off, .shared data⟩) ∧
    ((∀ s, some s ∈ decodeOffsets v off data → validUTF8 s = true) →
       binaryToBinaryOO false true false srcWide srcWide v off data srcName dstName =
         .ok ⟨v, .shared off, .shared data⟩) := by
  refine ⟨?_, ?_, ?_⟩
  · intro h
    have hg := utf8GuardSlots_err _ h
    simp [binaryToBinaryOO, hg]
  · simp [binaryToBinaryOO]
  · intro h
    have hg := utf8GuardSlots_ok _ h
    simp [binaryToBinaryOO, hg]

/-- Witness for `c4_utf8_gate`: binary bytes `\xFF\xFE` (one valid slot,
offsets `[0, 2]`) cast to a UTF-8 destination fail with
`allow_invalid_utf8 = false` and succeed sharing the raw bytes with
`allow_invalid_utf8 = true`. -/
theorem c4_utf8_gate_witness :
    binaryToBinaryOO false true false false false [true] [0, 2] [255, 254]
        "binary" "string" = .error (.invalid "Invalid UTF8 payload") ∧
    binaryToBinaryOO false true true false false [true] [0, 2] [255, 254]
        "binary" "string" =
      .ok ⟨[true], .shared [0, 2], .shared [255, 254]⟩ := by
  constructor
  · exact (c4_utf8_gate false false [true] [0, 2] [255, 254] "binary" "string").1
      ⟨[255, 254], by decide, by decide⟩
  · exact (c4_utf8_gate false false [true] [0, 2] [255, 254] "binary" "string").2.1

-- ----------------------------------------------------------------------
-- View layout

/-- A `BinaryViewType::c_type` record: either the bytes stored inline
(`inlined.size`, `inlined.data`; size at most `kInlineSize`), or a
reference view (`ref.size`, `ref.prefix`, `ref.buffer_index`,
`ref.offset`) pointing into one of the variadic data buffers.  A record
whose 16 bytes were only `memset` to zero is `.inlined []`. -/
inductive BinaryView where
  | inlined (data : List Byte)
  | ref (size : Nat) (pfx : List Byte) (bufferIndex : Nat) (offset : Nat)
deriving Repr, DecidableEq

/-- Whether a view record stores its bytes inline (no data-buffer reference). -/
def BinaryView.isInline : BinaryView → Bool
  | .inlined _ => true
  | .ref _ _ _ _ => false

/-- The bytes a view record denotes, given the variadic data buffers: the
inline bytes, or `size` bytes of buffer `buffer_index` starting at
`offset`.  This is what `VisitArraySpanInline` hands a visitor for a valid
view slot. -/
def BinaryView.resolve (bufs : List (List Byte)) : BinaryView → List Byte
  | .inlined d => d
  | .ref size _ bufferIndex offset => sliceBytes (bufs.getD bufferIndex []) offset size

/-- A destination array in view layout: validity, the `N` view records and
the variadic data buffers (each tagged shared/fresh). -/
structure ViewArray where
  validity : List Bool
  views : List BinaryView
  dataBufs : List (BufRef (List Byte))
deriving Repr, DecidableEq

-- ----------------------------------------------------------------------
-- Offset string -> String view

/-- One iteration of the offset -> view loop for a valid slot: given
`off[i] = a`, `off[i+1] = c`, length `c - a`; lengths at most
`kInlineSize` are copied inline, longer slots become a reference view with
the first `kPrefixSize` bytes as prefix, buffer index 0 (zeroed by the
`memset`) and the absolute data offset `a`. -/
def mkOffsetView (a c : Int) (data : List Byte) : BinaryView :=
  let len := (c - a).toNat
  if len ≤ kInlineSize then .inlined (sliceBytes data a.toNat len)
  else .ref len (sliceBytes data a.toNat kPrefixSize) 0 a.toNat

/-- The view records produced by the offset -> view loop
(`VisitSetBitRunsVoid` over the validity bits): valid slots get
`mkOffsetView off[i] off[i+1]`, null slots keep their zeroed record. -/
def offsetViews : List Bool → List Int → List Byte → List BinaryView
  | [], _, _ => []
  | b :: bs, a :: c :: off, data =>
    (if b then mkOffsetView a c data else .inlined []) :: offsetViews bs (c :: off) data
  | _ :: _, _, _ => []

/-- `BinaryToBinaryCastExec` for offset string -> string view:
`ZeroCopyCastExec` shares validity and data; when the source offsets are
64-bit and the array is non-empty, the final (largest) offset is checked
against the 31-bit addressable range of a view reference and the cast
fails with `Status::CapacityError` before any view is written; otherwise
the view records are built and, when every produced view ended up inline,
the shared data buffer is dropped (`output->buffers[2] = nullptr`).
(The UTF-8 guard of this kernel is `utf8GuardSlots`, run beforehand;
it is modelled separately and omitted here.) -/
def offsetToView (wide : Bool) (v : List Bool) (off : List Int) (data : List Byte)
    (srcName dstName : String) : Except Err ViewArray :=
  if wide && decide (0 < v.length) && decide (int32Max < off.getD v.length 0) then
    .error (.capacity ("Failed casting from " ++ srcName ++ " to " ++ dstName ++
      ": input array too large for efficient conversion."))
  else
    let views := offsetViews v off data
    if views.all BinaryView.isInline then .ok ⟨v, views, []⟩
    else .ok ⟨v, views, [.shared data]⟩

-- ----------------------------------------------------------------------
-- String view -> Offset string

/-- `static_cast<offset_type>(data_builder.length())`: the running data
length narrowed to the destination offset width. -/
def castOffVal (wide : Bool) (n : Nat) : Int := wrapW wide (n : Int)

/-- The `VisitArraySpanInline` loop of view -> offset: valid slots append
their resolved bytes to the data builder and the new data length to the
offset builder; null slots append only the unchanged data length.  Returns
the final data buffer and the offsets after the leading 0. -/
def voRec (wide : Bool) (bufs : List (List Byte)) :
    List (Bool × BinaryView) → List Byte → List Byte × List Int
  | [], data => (data, [])
  | (valid, w) :: rest, data =>
    let data' := if valid then data ++ w.resolve bufs else data
    let r := voRec wide bufs rest data'
    (r.1, castOffVal wide data'.length :: r.2)

/-- `BinaryToBinaryCastExec` for string view -> offset string: the
validity bitmap is taken from the source
(`GetOrCopyNullBitmapBuffer`), the offset builder starts at 0, and the
loop `voRec` fills a freshly allocated data buffer and the remaining
offsets. -/
def viewToOffset (wide : Bool) (va : ViewArray) : OffsetArr :=
  let r := voRec wide (va.dataBufs.map BufRef.val) (va.validity.zip va.views) []
  ⟨va.validity, .fresh (0 :: r.2), .fresh r.1⟩

-- ----------------------------------------------------------------------
-- Fixed -> String view

/-- The inline loop of fixed -> view (`fixed_size_width <= kInlineSize`):
slot `i` gets an inline view of the `width` bytes at
`data_offset = (input.offset + i) * width`. -/
def fixedViewsInline (width : Nat) (data : List Byte) : Nat → Nat → List BinaryView
  | _, 0 => []
  | pos, n + 1 =>
    .inlined (sliceBytes data pos width) :: fixedViewsInline width data (pos + width) n

/-- The reference loop of fixed -> view (`fixed_size_width >
kInlineSize`): slot `i` gets a reference view of size `width` with the
first `kPrefixSize` bytes as prefix, buffer index 0 and offset
`(input.offset + i) * width` into the shared fixed-width data buffer. -/
def fixedViewsRef (width : Nat) (data : List Byte) : Nat → Nat → List BinaryView
  | _, 0 => []
  | pos, n + 1 =>
    .ref width (sliceBytes data pos kPrefixSize) 0 pos ::
      fixedViewsRef width data (pos + width) n

/-- `BinaryToBinaryCastExec` for fixed-size binary -> string view: the
validity buffer is shared; for a non-empty buffer the largest data offset
`(input.offset + length - 1) * width` is checked against the 31-bit
addressable range, failing with `Status::CapacityError`; then either every
slot is written inline (width at most `kInlineSize`; no data buffer is
attached) or every slot becomes a reference view into the input data
buffer, which is shared as variadic buffer 0. -/
def fixedToView (width aoff : Nat) (v : List Bool) (data : List Byte)
    (srcName dstName : String) : Except Err ViewArray :=
  let total := aoff + v.length
  if 0 < total ∧ int32Max < ((total : Int) - 1) * width then
    .error (.capacity ("Failed casting from " ++ srcName ++ " to " ++ dstName ++
      ": input array too large for efficient conversion."))
  else if width ≤ kInlineSize then
    .ok ⟨v, fixedViewsInline width data (aoff * width) v.length, []⟩
  else
    .ok ⟨v, fixedViewsRef width data (aoff * width) v.length, [.shared data]⟩

-- ----------------------------------------------------------------------
-- Fixed -> Offset string

/-- The offsets loop of fixed -> offset: `offsets[0] =
static_cast<offset_type>(input.offset * width)` and `offsets[i+1] =
offsets[i] + width`, each addition performed (and therefore wrapped) in
the destination offset type. -/
def apOffsetsAux (wrapF : Int → Int) (width : Int) : Int → Nat → List Int
  | cur, 0 => [cur]
  | cur, n + 1 => cur :: apOffsetsAux wrapF width (wrapF (cur + width)) n

/-- `BinaryToBinaryCastExec` for fixed-size binary -> offset string: the
total data span `width * input.length` is checked against the destination
offset type's maximum (failing with `Status::Invalid` naming both types);
the validity bitmap is shared (or copied when start offsets differ; the
content is the same either way); the destination offsets are the
arithmetic progression starting at `input.offset * width`; and the data
buffer is a fresh copy (`Buffer::CopySlice`) of the whole input data
buffer, never a shared handle. -/
def fixedToOffset (wide : Bool) (width aoff : Nat) (v : List Bool) (data : List Byte)
    (srcName dstName : String) : Except Err OffsetArr :=
  if kMaxOffset wide < (width : Int) * v.length then
    .error (.invalid ("Failed casting from " ++ srcName ++ " to " ++ dstName ++
      ": input array too large"))
  else
    .ok ⟨v, .fresh (apOffsetsAux (wrapW wide) width (wrapW wide (aoff * width)) v.length),
      .fresh data⟩

-- ----------------------------------------------------------------------
-- C5: fixed -> offset

theorem apOffsetsAux_no_wrap (wide : Bool) (width : Int) (hw : 0 ≤ width) :
    ∀ (n : Nat) (base : Int), 0 ≤ base → base + n * width ≤ kMaxOffset wide →
      apOffsetsAux (wrapW wide) width (wrapW wide base) n =
        (List.range (n + 1)).map (fun i : Nat => base + (i : Int) * width) := by
  intro n
  induction n with
  | zero =>
    intro base h0 hle
    simp only [Nat.cast_zero, zero_mul, add_zero] at hle
    simp [apOffsetsAux, wrapW_eq_self h0 hle, show List.range 1 = [0] from rfl]
  | succ m ih =>
    intro base h0 hle
    have hmw : ((m + 1 : Nat) : Int) * width = width + (m : Int) * width := by
      push_cast; ring
    have hmnn : 0 ≤ (m : Int) * width := mul_nonneg (by positivity) hw
    have hbase : base ≤ kMaxOffset wide := by linarith [hle, hmw, hmnn, hw]
    have hb : wrapW wide base = base := wrapW_eq_self h0 hbase
    have ih2 := ih (base + width) (by linarith) (by linarith [hle, hmw])
    simp only [apOffsetsAux, hb]
    rw [ih2]
    conv_rhs => rw [List.range_succ_eq_map]
    simp only [List.map_cons, List.map_map, Nat.cast_zero, zero_mul, add_zero]
    congr 1
    apply List.map_congr_left
    intro i _
    simp only [Function.comp_apply]
    push_cast
    ring

/-- C5 (as stated) is false: the overflow check compares `width * length`
against the destination maximum but ignores the array's start offset,
while the produced offsets start at `input.offset * width`.  A 1-slot
width-2 source sliced to start offset `2^30` passes the check, yet the
mathematical first offset `2^30 * 2 = 2^31` exceeds the 32-bit maximum,
and the stored (wrapped) offsets are negative rather than the claimed
arithmetic progression. -/
theorem c5_counterexample :
    fixedToOffset false 2 1073741824 [true] [] "fixed_size_binary[2]" "binary" =
      .ok ⟨[true], .fresh [-2147483648, -2147483646], .fresh []⟩ ∧
    int32Max < (1073741824 : Int) * 2 := by
  constructor
  · rfl
  · decide

/-- C5 (amended): the pre-allocation overflow check bounds `width * length`
(not the start-offset-shifted positions) by the destination offset type's
maximum, failing with `Invalid`; whenever the final absolute position
`(input.offset + length) * width` fits that maximum — in particular for
every source with start offset 0 — the produced offsets are exactly the
arithmetic progression `offset[i] = input.offset * width + i * width`, all
within the maximum, and the destination data buffer is a fresh copy of the
source data buffer, never a shared handle. -/
theorem c5_amended (wide : Bool) (width aoff : Nat) (v : List Bool)
    (data : List Byte) (srcName dstName : String) :
    (kMaxOffset wide < (width : Int) * v.length →
      fixedToOffset wide width aoff v data srcName dstName =
        .error (.invalid ("Failed casting from " ++ srcName ++ " to " ++ dstName ++
          ": input array too large"))) ∧
    (((aoff : Int) + v.length) * width ≤ kMaxOffset wide →
      fixedToOffset wide width aoff v data srcName dstName =
        .ok ⟨v, .fresh ((List.range (v.length + 1)).map
            (fun i : Nat => (aoff : Int) * width + (i : Int) * width)),
          .fresh data⟩) := by
  constructor
  · intro hgt
    unfold fixedToOffset
    rw [if_pos hgt]
  · intro hle
    have hexp : ((aoff : Int) + v.length) * width =
        (aoff : Int) * width + (v.length : Int) * width := by ring
    have hcomm : (width : Int) * v.length = (v.length : Int) * width :=
      mul_comm _ _
    have hnn1 : 0 ≤ (aoff : Int) * width := by positivity
    have hnn2 : 0 ≤ (v.length : Int) * width := by positivity
    unfold fixedToOffset
    rw [if_neg (not_lt.mpr (by linarith [hexp, hcomm, hnn1, hle]))]
    have := apOffsetsAux_no_wrap wide width (by positivity) v.length
      ((aoff : Int) * width) hnn1 (by linarith [hexp, hle])
    rw [show wrapW wide ((aoff : Int) * (width : Int)) =
        wrapW wide ((aoff : Int) * width) from rfl, this]

/-- Witness for `c5_amended`: a 2-slot width-3 source with start offset 0
produces the offsets `[0, 3, 6]` and a fresh copy of the data. -/
theorem c5_amended_witness :
    fixedToOffset false 3 0 [true, true] [1, 2, 3, 4, 5, 6]
        "fixed_size_binary[3]" "binary" =
      .ok ⟨[true, true], .fresh [0, 3, 6], .fresh [1, 2, 3, 4, 5, 6]⟩ := by
  have h := (c5_amended false 3 0 [true, true] [1, 2, 3, 4, 5, 6]
    "fixed_size_binary[3]" "binary").2 (by decide)
  rw [h]
  rfl

/-- C9 (as stated) is false: in the fixed -> offset pair a null source
slot does not contribute a repeated offset.  A 1-slot all-null width-1
source yields offsets `[0, 1]` (a 1-byte span for the null slot) and the
whole data buffer — the null slot's byte included — is copied into the
destination. -/
theorem c9_counterexample :
    fixedToOffset false 1 0 [false] [42] "fixed_size_binary[1]" "binary" =
      .ok ⟨[false], .fresh [0, 1], .fresh [42]⟩ ∧
    ¬ (([0, 1] : List Int).getD 1 0 = ([0, 1] : List Int).getD 0 0) := by
  constructor
  · rfl
  · decide

-- ----------------------------------------------------------------------
-- C6 / C7 / C10: view-producing conversions

theorem fixedViewsInline_eq (width : Nat) (data : List Byte) :
    ∀ (n pos : Nat), fixedViewsInline width data pos n =
      (List.range n).map (fun i : Nat =>
        BinaryView.inlined (sliceBytes data (pos + i * width) width)) := by
  intro n
  induction n with
  | zero => intro pos; rfl
  | succ m ih =>
    intro pos
    simp only [fixedViewsInline, ih (pos + width)]
    conv_rhs => rw [List.range_succ_eq_map]
    simp only [List.map_cons, List.map_map, Nat.zero_mul, Nat.add_zero]
    congr 1
    apply List.map_congr_left
    intro i _
    simp only [Function.comp_apply, Nat.succ_eq_add_one]
    congr 2
    ring

theorem fixedViewsRef_eq (width : Nat) (data : List Byte) :
    ∀ (n pos : Nat), fixedViewsRef width data pos n =
      (List.range n).map (fun i : Nat =>
        BinaryView.ref width (sliceBytes data (pos + i * width) kPrefixSize) 0
          (pos + i * width)) := by
  intro n
  induction n with
  | zero => intro pos; rfl
  | succ m ih =>
    intro pos
    simp only [fixedViewsRef, ih (pos + width)]
    conv_rhs => rw [List.range_succ_eq_map]
    simp only [List.map_cons, List.map_map, Nat.zero_mul, Nat.add_zero]
    congr 1
    apply List.map_congr_left
    intro i _
    simp only [Function.comp_apply, Nat.succ_eq_add_one]
    have h : pos + width + i * width = pos + (i + 1) * width := by ring
    rw [h]

/-- C6 (as stated) is false at one edge: in fixed -> view the data buffer
is attached whenever the width exceeds the inline threshold, with no
recomputation from the produced views.  An empty width-13 source produces
no views at all — so every produced view is (vacuously) inline — yet the
shared data buffer is kept, not dropped. -/
theorem c6_counterexample :
    fixedToView 13 0 [] [] "fixed_size_binary[13]" "binary_view" =
      .ok ⟨[], [], [.shared []]⟩ ∧
    ([] : List BinaryView).all BinaryView.isInline = true := by
  constructor
  · rfl
  · rfl

/-- C6 (amended): in fixed -> view, when the capacity check passes,
elements of width at most the inline threshold are stored inline
(slot bytes copied into the view record, no external data buffer) and
elements of width above the threshold are stored as reference views
(prefix of `kPrefixSize` bytes, buffer index 0, offset
`(input.offset + i) * width` into the original data buffer, which is
shared) — the buffer presence is decided by the width alone, so an empty
ref-branch array keeps its buffer; in offset -> view the drop of the data
buffer is genuinely recomputed: the successful output has no data buffer
exactly when every produced view is inline. -/
theorem c6_amended (width aoff : Nat) (v : List Bool) (data : List Byte)
    (s d : String) (wideO : Bool) (vO : List Bool) (offO : List Int)
    (dataO : List Byte) (sO dO : String) :
    (¬ (0 < aoff + v.length ∧
          int32Max < (((aoff + v.length : Nat) : Int) - 1) * width) →
      width ≤ kInlineSize →
      fixedToView width aoff v data s d =
        .ok ⟨v, (List.range v.length).map (fun i : Nat =>
            BinaryView.inlined (sliceBytes data (aoff * width + i * width) width)),
          []⟩) ∧
    (¬ (0 < aoff + v.length ∧
          int32Max < (((aoff + v.length : Nat) : Int) - 1) * width) →
      kInlineSize < width →
      fixedToView width aoff v data s d =
        .ok ⟨v, (List.range v.length).map (fun i : Nat =>
            BinaryView.ref width
              (sliceBytes data (aoff * width + i * width) kPrefixSize) 0
              (aoff * width + i * width)),
          [.shared data]⟩) ∧
    (∀ res, offsetToView wideO vO offO dataO sO dO = .ok res →
      (res.dataBufs = [] ↔ res.views.all BinaryView.isInline = true)) := by
  refine ⟨?_, ?_, ?_⟩
  · intro hcap hw
    simp only [fixedToView]
    rw [if_neg hcap, if_pos hw, fixedViewsInline_eq]
  · intro hcap hw
    simp only [fixedToView]
    rw [if_neg hcap, if_neg (not_le.mpr hw), fixedViewsRef_eq]
  · intro res hres
    simp only [offsetToView] at hres
    split at hres
    · cases hres
    · split at hres
      next hall =>
        injection hres with h
        subst h
        simp [hall]
      next hall =>
        injection hres with h
        subst h
        simp [hall]

/-- Witness for `c6_amended`: a width exactly at the inline threshold (12)
is stored inline with no data buffer; width threshold+1 (13) is stored as
a reference view sharing the data buffer. -/
theorem c6_amended_witness :
    fixedToView 12 0 [true] (List.range 12) "fixed_size_binary[12]" "binary_view" =
      .ok ⟨[true], [.inlined [0, 1, 2, 3, 4, 5, 6, 7, 8, 9, 10, 11]], []⟩ ∧
    fixedToView 13 0 [true] (List.range 13) "fixed_size_binary[13]" "binary_view" =
      .ok ⟨[true], [.ref 13 [0, 1, 2, 3] 0 0], [.shared (List.range 13)]⟩ := by
  constructor
  · have h := (c6_amended 12 0 [true] (List.range 12) "fixed_size_binary[12]"
      "binary_view" false [] [] [] "" "").1 (by decide) (by decide)
    rw [h]
    rfl
  · have h := (c6_amended 13 0 [true] (List.range 13) "fixed_size_binary[13]"
      "binary_view" false [] [] [] "" "").2.1 (by decide) (by decide)
    rw [h]
    rfl

theorem getD_chain_le (off : List Int)
    (hmono : ∀ j, j + 1 < off.length → off.getD j 0 ≤ off.getD (j + 1) 0) :
    ∀ k, k < off.length → ∀ i, i ≤ k → off.getD i 0 ≤ off.getD k 0 := by
  intro k
  induction k with
  | zero =>
    intro _ i hi
    have : i = 0 := by omega
    subst this
    exact le_refl _
  | succ n ih =>
    intro hk i hi
    rcases Nat.eq_or_lt_of_le hi with he | hlt
    · subst he
      exact le_refl _
    · have hin : i ≤ n := by omega
      exact le_trans (ih (by omega) i hin) (hmono n hk)

/-- C7: whenever a conversion producing view references would reference a
byte position beyond the 31-bit addressable range, it fails with a
`CapacityError` (naming both types) instead of wrapping the position or
splitting the data: in offset -> view (64-bit source offsets,
non-decreasing) any valid slot that would become a reference view from a
position above `int32Max` forces the failure, and likewise in
fixed -> view any slot position `(input.offset + i) * width` above
`int32Max` forces it. -/
theorem c7_capacity_error (v : List Bool) (off : List Int) (data : List Byte)
    (s d : String) (width aoff : Nat) (v2 : List Bool) (data2 : List Byte)
    (s2 d2 : String) :
    ((off.length = v.length + 1) →
     (∀ j, j + 1 < off.length → off.getD j 0 ≤ off.getD (j + 1) 0) →
     (∃ i, i < v.length ∧ v.getD i false = true ∧
        kInlineSize < (off.getD (i + 1) 0 - off.getD i 0).toNat ∧
        int32Max < off.getD i 0) →
     offsetToView true v off data s d =
       .error (.capacity ("Failed casting from " ++ s ++ " to " ++ d ++
         ": input array too large for efficient conversion."))) ∧
    ((kInlineSize < width) →
     (∃ i, i < v2.length ∧ int32Max < ((aoff : Int) + i) * width) →
     fixedToView width aoff v2 data2 s2 d2 =
       .error (.capacity ("Failed casting from " ++ s2 ++ " to " ++ d2 ++
         ": input array too large for efficient conversion."))) := by
  constructor
  · intro hlen hmono hex
    obtain ⟨i, hiN, _, _, hpos⟩ := hex
    have hle : off.getD i 0 ≤ off.getD v.length 0 :=
      getD_chain_le off hmono v.length (by omega) i (by omega)
    have hN : 0 < v.length := by omega
    have hcond : (true && decide (0 < v.length) &&
        decide (int32Max < off.getD v.length 0)) = true := by
      simp only [Bool.true_and, Bool.and_eq_true, decide_eq_true_eq]
      exact ⟨hN, by omega⟩
    simp only [offsetToView]
    rw [if_pos hcond]
  · intro hw hex
    obtain ⟨i, hiN, hpos⟩ := hex
    have htot : 0 < aoff + v2.length := by omega
    have hwnn : (0 : Int) ≤ (width : Int) := by positivity
    have hmul : ((aoff : Int) + i) * width ≤
        (((aoff + v2.length : Nat) : Int) - 1) * width := by
      apply mul_le_mul_of_nonneg_right _ hwnn
      push_cast
      omega
    simp only [fixedToView]
    rw [if_pos ⟨htot, by linarith [hpos, hmul]⟩]

/-- Witness for `c7_capacity_error`: a 64-bit offset slot starting at
`2^31` with length 13, and a width-13 fixed array sliced to start offset
`2^31`, both fail with the capacity error. -/
theorem c7_capacity_error_witness :
    offsetToView true [true] [2147483648, 2147483661] [] "large_binary" "binary_view" =
      .error (.capacity ("Failed casting from large_binary to binary_view" ++
        ": input array too large for efficient conversion.")) ∧
    fixedToView 13 2147483648 [true] [] "fixed_size_binary[13]" "binary_view" =
      .error (.capacity ("Failed casting from fixed_size_binary[13] to binary_view" ++
        ": input array too large for efficient conversion.")) := by
  constructor
  · exact (c7_capacity_error [true] [2147483648, 2147483661] [] "large_binary"
      "binary_view" 13 0 [] [] "" "").1 rfl
      (by
        intro j hj
        simp only [List.length_cons, List.length_nil] at hj
        have hj0 : j = 0 := by omega
        subst hj0
        decide)
      ⟨0, by decide, rfl, by decide, by decide⟩
  · exact (c7_capacity_error [] [] [] "" "" 13 2147483648 [true] []
      "fixed_size_binary[13]" "binary_view").2 (by decide) ⟨0, by decide, by decide⟩

theorem offsetViews_ref_mem :
    ∀ (v : List Bool) (off : List Int) (data : List Byte) (w : BinaryView),
      w ∈ offsetViews v off data → ∀ size pfx bi o, w = .ref size pfx bi o →
      ∃ a ∈ off, o = a.toNat := by
  intro v
  induction v with
  | nil =>
    intro off data w hw
    simp [offsetViews] at hw
  | cons b bs ih =>
    intro off data w hw size pfx bi o href
    rcases off with _ | ⟨a, _ | ⟨c, off'⟩⟩
    · simp [offsetViews] at hw
    · simp [offsetViews] at hw
    · simp only [offsetViews, List.mem_cons] at hw
      rcases hw with hw | hw
      · rw [hw] at href
        by_cases hb : b
        · rw [if_pos hb] at href
          simp only [mkOffsetView] at href
          split at href
          · cases href
          · injection href with _ _ _ h4
            exact ⟨a, by simp, h4.symm⟩
        · rw [if_neg hb] at href
          cases href
      · obtain ⟨a', ha', ho⟩ := ih (c :: off') data w hw size pfx bi o href
        exact ⟨a', by simp only [List.mem_cons] at ha' ⊢; tauto, ho⟩

/-- C10: an offset -> view conversion from a 32-bit-offset source never
fails with a capacity error (the overflow check runs only for source
offset widths above 32 bits), and — since every 32-bit offset value fits
the 31-bit view-reference range — every reference view a successful
conversion produces addresses a position at most `int32Max`. -/
theorem c10_narrow_no_capacity (v : List Bool) (off : List Int) (data : List Byte)
    (s d : String) :
    (offsetToView false v off data s d).isOk = true ∧
    ((∀ x ∈ off, 0 ≤ x ∧ x ≤ int32Max) →
      ∀ res, offsetToView false v off data s d = .ok res →
      ∀ w ∈ res.views, ∀ size pfx bi o, w = .ref size pfx bi o →
        (o : Int) ≤ int32Max) := by
  constructor
  · simp only [offsetToView, Bool.false_and]
    rw [if_neg (by simp)]
    split
    · rfl
    · rfl
  · intro hb res hres w hw size pfx bi o href
    have hviews : res.views = offsetViews v off data := by
      simp only [offsetToView, Bool.false_and] at hres
      rw [if_neg (by simp)] at hres
      split at hres
      · injection hres with h
        subst h
        rfl
      · injection hres with h
        subst h
        rfl
    rw [hviews] at hw
    obtain ⟨a, ha, ho⟩ := offsetViews_ref_mem v off data w hw size pfx bi o href
    subst ho
    rw [Int.toNat_of_nonneg (hb a ha).1]
    exact (hb a ha).2

/-- Witness for `c10_narrow_no_capacity`: a 32-bit source `[3, 20]` with a
17-byte slot converts successfully and its reference view's position 3 is
within the 31-bit range. -/
theorem c10_narrow_no_capacity_witness :
    (offsetToView false [true] [3, 20] (List.range 20) "binary" "binary_view").isOk
      = true ∧
    ((3 : Nat) : Int) ≤ int32Max := by
  constructor
  · exact (c10_narrow_no_capacity [true] [3, 20] (List.range 20)
      "binary" "binary_view").1
  · exact (c10_narrow_no_capacity [true] [3, 20] (List.range 20)
      "binary" "binary_view").2 (by decide)
      ⟨[true], [.ref 17 [3, 4, 5, 6] 0 3], [.shared (List.range 20)]⟩ (by rfl)
      (.ref 17 [3, 4, 5, 6] 0 3) (by simp) 17 [3, 4, 5, 6] 0 3 rfl

-- ----------------------------------------------------------------------
-- C2: offset -> view -> offset round trip

/-- The per-slot values a visitor sees on a view array: valid slots
resolve their view against the variadic buffers, null slots are `none`. -/
def resolvedSlots (bufs : List (List Byte)) (pairs : List (Bool × BinaryView)) :
    List (Option (List Byte)) :=
  pairs.map fun p => if p.1 then some (p.2.resolve bufs) else none

/-- The bytes the view -> offset loop appends overall: the concatenation
of the resolved bytes of the valid slots. -/
def flatRes (bufs : List (List Byte)) : List (Bool × BinaryView) → List Byte
  | [] => []
  | (b, w) :: rest => (if b then w.resolve bufs else []) ++ flatRes bufs rest

theorem int32Max_le_kMaxOffset (wide : Bool) : int32Max ≤ kMaxOffset wide := by
  cases wide <;> decide

theorem castOffVal_eq (wide : Bool) (n : Nat) (h : (n : Int) ≤ int32Max) :
    castOffVal wide n = n := by
  unfold castOffVal
  exact wrapW_eq_self (by positivity) (le_trans h (int32Max_le_kMaxOffset wide))

theorem voRec_data (wide : Bool) (bufs : List (List Byte)) :
    ∀ (pairs : List (Bool × BinaryView)) (pre : List Byte),
      (voRec wide bufs pairs pre).1 = pre ++ flatRes bufs pairs := by
  intro pairs
  induction pairs with
  | nil => intro pre; simp [voRec, flatRes]
  | cons p rest ih =>
    intro pre
    obtain ⟨b, w⟩ := p
    simp only [voRec, flatRes]
    rw [ih]
    cases b
    · simp
    · simp [List.append_assoc]

theorem voRec_cons_false_1 (wide : Bool) (bufs : List (List Byte))
    (w : BinaryView) (rest : List (Bool × BinaryView)) (pre : List Byte) :
    (voRec wide bufs ((false, w) :: rest) pre).1 = (voRec wide bufs rest pre).1 := by
  simp [voRec]

theorem voRec_cons_false_2 (wide : Bool) (bufs : List (List Byte))
    (w : BinaryView) (rest : List (Bool × BinaryView)) (pre : List Byte) :
    (voRec wide bufs ((false, w) :: rest) pre).2 =
      castOffVal wide pre.length :: (voRec wide bufs rest pre).2 := by
  simp [voRec]

theorem voRec_cons_true_1 (wide : Bool) (bufs : List (List Byte))
    (w : BinaryView) (rest : List (Bool × BinaryView)) (pre : List Byte) :
    (voRec wide bufs ((true, w) :: rest) pre).1 =
      (voRec wide bufs rest (pre ++ w.resolve bufs)).1 := by
  simp [voRec]

theorem voRec_cons_true_2 (wide : Bool) (bufs : List (List Byte))
    (w : BinaryView) (rest : List (Bool × BinaryView)) (pre : List Byte) :
    (voRec wide bufs ((true, w) :: rest) pre).2 =
      castOffVal wide (pre ++ w.resolve bufs).length ::
        (voRec wide bufs rest (pre ++ w.resolve bufs)).2 := by
  simp [voRec]

theorem resolvedSlots_cons (bufs : List (List Byte)) (b : Bool) (w : BinaryView)
    (rest : List (Bool × BinaryView)) :
    resolvedSlots bufs ((b, w) :: rest) =
      (if b then some (w.resolve bufs) else none) :: resolvedSlots bufs rest := rfl

theorem decodeOffsets_cons (b : Bool) (bs : List Bool) (a c : Int)
    (off : List Int) (data : List Byte) :
    decodeOffsets (b :: bs) (a :: c :: off) data =
      (if b then some (sliceBytes data a.toNat (c - a).toNat) else none) ::
        decodeOffsets bs (c :: off) data := rfl

theorem voRec_decode (wide : Bool) (bufs : List (List Byte)) :
    ∀ (pairs : List (Bool × BinaryView)) (pre : List Byte),
      ((pre.length : Int) + (flatRes bufs pairs).length ≤ int32Max) →
      decodeOffsets (pairs.map Prod.fst)
          (castOffVal wide pre.length :: (voRec wide bufs pairs pre).2)
          (voRec wide bufs pairs pre).1 =
        resolvedSlots bufs pairs := by
  intro pairs
  induction pairs with
  | nil =>
    intro pre _
    rfl
  | cons p rest ih =>
    intro pre H
    obtain ⟨b, w⟩ := p
    cases b
    · -- null slot: data unchanged, repeated offset
      have Hr : ((pre.length : Int) + (flatRes bufs rest).length ≤ int32Max) := by
        simpa [flatRes] using H
      have htail := ih pre Hr
      show decodeOffsets (false :: rest.map Prod.fst)
          (castOffVal wide pre.length :: (voRec wide bufs ((false, w) :: rest) pre).2)
          (voRec wide bufs ((false, w) :: rest) pre).1 =
        resolvedSlots bufs ((false, w) :: rest)
      rw [voRec_cons_false_1, voRec_cons_false_2, resolvedSlots_cons,
        decodeOffsets_cons, htail]
      rfl
    · -- valid slot: bytes appended, offset advances by their length
      have hflat : flatRes bufs ((true, w) :: rest) =
          w.resolve bufs ++ flatRes bufs rest := by simp [flatRes]
      have Hlen : ((pre.length : Int) + (w.resolve bufs).length +
          (flatRes bufs rest).length ≤ int32Max) := by
        rw [hflat] at H
        simp only [List.length_append] at H
        push_cast at H ⊢
        omega
      have Hr : (((pre ++ w.resolve bufs).length : Int) +
          (flatRes bufs rest).length ≤ int32Max) := by
        simp only [List.length_append]
        push_cast
        push_cast at Hlen
        omega
      have htail := ih (pre ++ w.resolve bufs) Hr
      have hx : castOffVal wide pre.length = (pre.length : Int) :=
        castOffVal_eq wide pre.length (by
          have h1 : (0 : Int) ≤ (w.resolve bufs).length := by positivity
          have h2 : (0 : Int) ≤ (flatRes bufs rest).length := by positivity
          omega)
      have hy : castOffVal wide (pre ++ w.resolve bufs).length =
          ((pre ++ w.resolve bufs).length : Int) :=
        castOffVal_eq wide _ (by
          simp only [List.length_append]
          have h2 : (0 : Int) ≤ (flatRes bufs rest).length := by positivity
          push_cast
          omega)
      show decodeOffsets (true :: rest.map Prod.fst)
          (castOffVal wide pre.length :: (voRec wide bufs ((true, w) :: rest) pre).2)
          (voRec wide bufs ((true, w) :: rest) pre).1 =
        resolvedSlots bufs ((true, w) :: rest)
      rw [voRec_cons_true_1, voRec_cons_true_2, resolvedSlots_cons,
        decodeOffsets_cons, htail]
      congr 1
      show some (sliceBytes (voRec wide bufs rest (pre ++ w.resolve bufs)).1
          (castOffVal wide pre.length).toNat
          (castOffVal wide (pre ++ w.resolve bufs).length -
            castOffVal wide pre.length).toNat) =
        some (w.resolve bufs)
      rw [hx, hy]
      have hdata : (voRec wide bufs rest (pre ++ w.resolve bufs)).1 =
          pre ++ (w.resolve bufs ++ flatRes bufs rest) := by
        rw [voRec_data, List.append_assoc]
      rw [hdata]
      have hsub : (((pre ++ w.resolve bufs).length : Int) -
          (pre.length : Int)).toNat = (w.resolve bufs).length := by
        simp only [List.length_append]
        push_cast
        omega
      rw [hsub]
      congr 1
      rw [show Int.toNat (pre.length : Int) = pre.length from by omega]
      unfold sliceBytes
      rw [List.drop_left, List.take_left]

theorem offsetViews_length :
    ∀ (v : List Bool) (off : List Int) (data : List Byte),
      off.length = v.length + 1 → (offsetViews v off data).length = v.length := by
  intro v
  induction v with
  | nil => intro off data _; rfl
  | cons b bs ih =>
    intro off data hlen
    rcases off with _ | ⟨a, _ | ⟨c, off'⟩⟩
    · simp at hlen
    · simp at hlen
    · simp only [offsetViews, List.length_cons]
      rw [ih (c :: off') data (by simpa using hlen)]

theorem offsetViews_decode (bufs : List (List Byte)) :
    ∀ (v : List Bool) (off : List Int) (data : List Byte),
      (bufs.getD 0 [] = data ∨
        (offsetViews v off data).all BinaryView.isInline = true) →
      off.length = v.length + 1 →
      resolvedSlots bufs (v.zip (offsetViews v off data)) =
        decodeOffsets v off data := by
  intro v
  induction v with
  | nil => intro off data _ _; rfl
  | cons b bs ih =>
    intro off data hb hlen
    rcases off with _ | ⟨a, _ | ⟨c, off'⟩⟩
    · simp at hlen
    · simp at hlen
    · have hb' : bufs.getD 0 [] = data ∨
          (offsetViews bs (c :: off') data).all BinaryView.isInline = true := by
        rcases hb with hb | hb
        · exact Or.inl hb
        · simp only [offsetViews, List.all_cons, Bool.and_eq_true] at hb
          exact Or.inr hb.2
      have htail := ih (c :: off') data hb' (by simpa using hlen)
      show resolvedSlots bufs ((b, if b then mkOffsetView a c data
          else BinaryView.inlined []) :: bs.zip (offsetViews bs (c :: off') data)) =
        decodeOffsets (b :: bs) (a :: c :: off') data
      rw [resolvedSlots_cons, decodeOffsets_cons, htail]
      congr 1
      cases b
      · rfl
      · show some ((mkOffsetView a c data).resolve bufs) =
          some (sliceBytes data a.toNat (c - a).toNat)
        congr 1
        simp only [mkOffsetView]
        by_cases hlen13 : (c - a).toNat ≤ kInlineSize
        · simp only [if_pos hlen13, BinaryView.resolve]
        · simp only [if_neg hlen13, BinaryView.resolve]
          rcases hb with hb | hb
          · rw [hb]
          · exfalso
            have hcons : offsetViews (true :: bs) (a :: c :: off') data =
                mkOffsetView a c data :: offsetViews bs (c :: off') data := rfl
            rw [hcons, List.all_cons, Bool.and_eq_true] at hb
            have hhead := hb.1
            simp only [mkOffsetView, if_neg hlen13, BinaryView.isInline] at hhead
            exact Bool.false_ne_true hhead

theorem mkOffsetView_resolve_len (a c : Int) (data : List Byte)
    (bufs : List (List Byte)) :
    (((mkOffsetView a c data).resolve bufs).length : Int) ≤ (c - a).toNat := by
  simp only [mkOffsetView]
  split
  · simp only [BinaryView.resolve, sliceBytes, List.length_take]
    exact_mod_cast Nat.min_le_left _ _
  · simp only [BinaryView.resolve, sliceBytes, List.length_take]
    exact_mod_cast Nat.min_le_left _ _

theorem flatRes_length_le (bufs : List (List Byte)) :
    ∀ (v : List Bool) (off : List Int) (data : List Byte),
      off.length = v.length + 1 →
      List.Chain' (· ≤ ·) off →
      ((flatRes bufs (v.zip (offsetViews v off data))).length : Int) ≤
        off.getD v.length 0 - off.getD 0 0 := by
  intro v
  induction v with
  | nil =>
    intro off data hlen _
    simp only [List.zip_nil_left]
    show ((flatRes bufs []).length : Int) ≤ _
    simp [flatRes]
  | cons b bs ih =>
    intro off data hlen hchain
    rcases off with _ | ⟨a, _ | ⟨c, off'⟩⟩
    · simp at hlen
    · simp at hlen
    · have hac : a ≤ c := (List.chain'_cons.mp hchain).1
      have htail := ih (c :: off') data (by simpa using hlen)
        (List.chain'_cons.mp hchain).2
      simp only [List.length_cons, List.getD_cons_succ, List.getD_cons_zero]
        at htail ⊢
      have hhead : (((if b then mkOffsetView a c data
          else BinaryView.inlined []).resolve bufs).length : Int) ≤ c - a := by
        cases b
        · show (((BinaryView.inlined []).resolve bufs).length : Int) ≤ c - a
          simp only [BinaryView.resolve, List.length_nil, Nat.cast_zero]
          omega
        · have h1 := mkOffsetView_resolve_len a c data bufs
          have h2 : ((c - a).toNat : Int) ≤ c - a := by omega
          show (((mkOffsetView a c data).resolve bufs).length : Int) ≤ c - a
          exact le_trans h1 h2
      show ((flatRes bufs ((b, if b then mkOffsetView a c data
          else BinaryView.inlined []) ::
          bs.zip (offsetViews bs (c :: off') data))).length : Int) ≤
        (c :: off').getD bs.length 0 - a
      have hfr : flatRes bufs ((b, if b then mkOffsetView a c data
          else BinaryView.inlined []) ::
            bs.zip (offsetViews bs (c :: off') data)) =
          (if b then (if b then mkOffsetView a c data
            else BinaryView.inlined []).resolve bufs else []) ++
            flatRes bufs (bs.zip (offsetViews bs (c :: off') data)) := rfl
      rw [hfr]
      have hiflen : (((if b then (if b then mkOffsetView a c data
          else BinaryView.inlined []).resolve bufs else []) : List Byte).length
            : Int) ≤ c - a := by
        cases b
        · simp only [Bool.false_eq_true, if_false, List.length_nil, Nat.cast_zero]
          omega
        · simpa using hhead
      simp only [List.length_append]
      push_cast
      omega

/-- C2: converting an offset-layout array (non-decreasing offsets starting
non-negative, final offset within the 32-bit range — guaranteed for
32-bit sources and enforced by the capacity check for 64-bit sources) to
view layout and back to offset layout reproduces the original validity
and the exact per-slot byte content, for every length including 0. -/
theorem c2_roundtrip (wide : Bool) (v : List Bool) (off : List Int)
    (data : List Byte) (srcName dstName : String) (res : ViewArray)
    (hlen : off.length = v.length + 1)
    (hchain : List.Chain' (· ≤ ·) off)
    (h0 : 0 ≤ off.getD 0 0)
    (hfit : off.getD v.length 0 ≤ int32Max)
    (hok : offsetToView wide v off data srcName dstName = .ok res) :
    (viewToOffset wide res).validity = v ∧
    decodeOffsets (viewToOffset wide res).validity
        (viewToOffset wide res).offsets.val (viewToOffset wide res).dataBuf.val =
      decodeOffsets v off data := by
  have hviews : res = ⟨v, offsetViews v off data, res.dataBufs⟩ ∧
      (res.dataBufs.map BufRef.val = [data] ∨
        (res.dataBufs = [] ∧
          (offsetViews v off data).all BinaryView.isInline = true)) := by
    simp only [offsetToView] at hok
    split at hok
    · cases hok
    · split at hok
      next hall =>
        injection hok with h
        subst h
        exact ⟨rfl, Or.inr ⟨rfl, hall⟩⟩
      next =>
        injection hok with h
        subst h
        exact ⟨rfl, Or.inl rfl⟩
  obtain ⟨hres, hbufs⟩ := hviews
  have hflat : ∀ bufs, ((flatRes bufs (v.zip (offsetViews v off data))).length : Int)
      ≤ int32Max := by
    intro bufs
    have h1 := flatRes_length_le bufs v off data hlen hchain
    omega
  have hdec : ∀ bufs, bufs.getD 0 [] = data ∨
        (offsetViews v off data).all BinaryView.isInline = true →
      decodeOffsets v (castOffVal wide (List.length ([] : List Byte)) ::
          (voRec wide bufs (v.zip (offsetViews v off data)) []).2)
        (voRec wide bufs (v.zip (offsetViews v off data)) []).1 =
        decodeOffsets v off data := by
    intro bufs hb
    have h1 := voRec_decode wide bufs (v.zip (offsetViews v off data)) []
      (by simpa using hflat bufs)
    rw [List.map_fst_zip v (offsetViews v off data)
      (le_of_eq (offsetViews_length v off data hlen).symm)] at h1
    rw [h1]
    exact offsetViews_decode bufs v off data hb hlen
  have hzero : (0 : Int) = castOffVal wide (List.length ([] : List Byte)) := by
    cases wide <;> decide
  constructor
  · rw [hres]
    rfl
  · rw [hres]
    simp only [viewToOffset, BufRef.val]
    rw [hzero]
    rcases hbufs with hb | ⟨hnil, hall⟩
    · rw [hb]
      exact hdec [data] (Or.inl rfl)
    · rw [hnil]
      exact hdec [] (Or.inr hall)

/-- Witness for `c2_roundtrip`: the 3-slot array `["abcdefghijklmnop", null,
""]` (one reference-sized slot, a null, an empty slot) survives the
offset -> view -> offset round trip with identical logical content. -/
theorem c2_roundtrip_witness :
    decodeOffsets [true, false, true] [0, 16, 16, 16]
        [97, 98, 99, 100, 101, 102, 103, 104, 105, 106, 107, 108, 109, 110, 111, 112]
      = [some [97, 98, 99, 100, 101, 102, 103, 104, 105, 106, 107, 108, 109, 110,
          111, 112], none, some []] ∧
    (∀ res, offsetToView false [true, false, true] [0, 16, 16, 16]
        [97, 98, 99, 100, 101, 102, 103, 104, 105, 106, 107, 108, 109, 110, 111, 112]
        "binary" "binary_view" = .ok res →
      decodeOffsets (viewToOffset false res).validity
          (viewToOffset false res).offsets.val (viewToOffset false res).dataBuf.val =
        decodeOffsets [true, false, true] [0, 16, 16, 16]
          [97, 98, 99, 100, 101, 102, 103, 104, 105, 106, 107, 108, 109, 110, 111,
            112]) := by
  constructor
  · rfl
  · intro res hok
    exact (c2_roundtrip false [true, false, true] [0, 16, 16, 16]
      [97, 98, 99, 100, 101, 102, 103, 104, 105, 106, 107, 108, 109, 110, 111, 112]
      "binary" "binary_view" res rfl
      (by
        refine List.chain'_cons.mpr ⟨by decide, ?_⟩
        refine List.chain'_cons.mpr ⟨by decide, ?_⟩
        refine List.chain'_cons.mpr ⟨by decide, ?_⟩
        exact List.chain'_singleton _)
      (by decide) (by decide) hok).2

-- ----------------------------------------------------------------------
-- C8: timestamp -> string

/-- `TimeUnit` of a timestamp type. -/
inductive TimeUnit where
  | second
  | milli
  | micro
  | nano
deriving Repr, DecidableEq

/-- Number of fractional-second digits rendered per time unit. -/
def fracDigits : TimeUnit → Nat
  | .second => 0
  | .milli => 3
  | .micro => 6
  | .nano => 9

/-- Ticks per second of a time unit. -/
def ticksPerSecond : TimeUnit → Int
  | .second => 1
  | .milli => 1000
  | .micro => 1000000
  | .nano => 1000000000

/-- Zero-padded decimal rendering of a natural number to at least `w` digits. -/
def padNum (w : Nat) (n : Nat) : String :=
  let s := toString n
  String.mk (List.replicate (w - s.length) '0') ++ s

/-- Modelled from the spec: the proleptic-Gregorian civil date
(year, month, day) of a day count relative to 1970-01-01, as computed by
the injected formatter (`arrow/util/formatting.h` /
`arrow/vendored/datetime`, outside `src/`). -/
def civilFromDays (z0 : Int) : Int × Int × Int :=
  let z := z0 + 719468
  let era := (if 0 ≤ z then z else z - 146096) / 146097
  let doe := z - era * 146097
  let yoe := (doe - doe / 1460 + doe / 36524 - doe / 146096) / 365
  let y := yoe + era * 400
  let doy := doe - (365 * yoe + yoe / 4 - yoe / 100)
  let mp := (5 * doy + 2) / 153
  let day := doy - (153 * mp + 2) / 5 + 1
  let m := mp + (if mp < 10 then 3 else -9)
  (y + (if m ≤ 2 then 1 else 0), m, day)

/-- Modelled from the spec: naive civil rendering
`YYYY-MM-DD HH:MM:SS` of an instant measured in whole seconds. -/
def formatCivil (secs : Int) : String :=
  let days := (if 0 ≤ secs then secs else secs - 86399) / 86400
  let sod := (secs - days * 86400).toNat
  let c := civilFromDays days
  padNum 4 c.1.toNat ++ "-" ++ padNum 2 c.2.1.toNat ++ "-" ++ padNum 2 c.2.2.toNat ++
    " " ++ padNum 2 (sod / 3600) ++ ":" ++ padNum 2 (sod % 3600 / 60) ++ ":" ++
    padNum 2 (sod % 60)

/-- Modelled from the spec: naive civil rendering of a timestamp value in
unit `u`, with the unit's fractional-second digits appended after a dot
for sub-second units (`.SSS`, `.SSSSSS`, `.SSSSSSSSS`). -/
def formatTs (u : TimeUnit) (v : Int) : String :=
  let t := ticksPerSecond u
  let secs := (if 0 ≤ v then v else v - (t - 1)) / t
  let sub := (v - secs * t).toNat
  formatCivil secs ++
    (if fracDigits u = 0 then "" else "." ++ padNum (fracDigits u) sub)

/-- Modelled from the spec: the `%z` rendering `+HHMM` / `-HHMM` of a
fixed zone offset given in seconds. -/
def zoneSuffix (zoff : Int) : String :=
  (if zoff < 0 then "-" else "+") ++ padNum 2 (zoff.natAbs / 3600) ++
    padNum 2 (zoff.natAbs % 3600 / 60)

/-- `TemporalToStringCastFunctor<O, TimestampType>::Exec` and
`ConvertZoned`: with an empty time zone every instant is rendered in naive
civil form; with a non-empty zone the zone is resolved once
(`LocateZone`, an injected capability modelled by the `resolve`
parameter; its failure aborts the cast), the format string is chosen by
comparing the zone name with the literal `"UTC"` (`'Z'` suffix versus the
`%z` `+HHMM` offset suffix), and every instant is rendered in that zone's
civil time.  Null slots render as null.  The formatters themselves
(`StringFormatter<TimestampType>`, `TimestampFormatter`) are outside
`src/` and are modelled from the spec by `formatTs`/`zoneSuffix`. -/
def timestampCastExec (resolve : String → Option Int) (u : TimeUnit) (tz : String)
    (slots : List (Option Int)) : Except Err (List (Option String)) :=
  if tz = "" then .ok (slots.map (Option.map (formatTs u)))
  else
    match resolve tz with
    | none => .error (.invalid ("Cannot locate timezone " ++ tz))
    | some zoff =>
      .ok (slots.map (Option.map (fun x =>
        formatTs u (x + zoff * ticksPerSecond u) ++
          (if tz = "UTC" then "Z" else zoneSuffix zoff))))

set_option maxRecDepth 8000 in
/-- C8: a timestamp column with no time zone renders each instant in
naive civil form; one carrying a time zone resolves the zone once and
renders each instant in that zone's civil time with a `+HHMM` suffix,
except that the zone name exactly `"UTC"` gets a literal `'Z'` suffix —
witnessed on the spec's example instant `2021-01-01 00:00:00`
(epoch 1609459200, second precision) bare, as UTC, and in a fixed
`+05:30` zone. -/
theorem c8_timestamp_format (resolve : String → Option Int) (u : TimeUnit)
    (tz : String) (slots : List (Option Int)) (zoff : Int) :
    (tz = "" → timestampCastExec resolve u tz slots =
      .ok (slots.map (Option.map (formatTs u)))) ∧
    (tz ≠ "" → resolve tz = some zoff →
      timestampCastExec resolve u tz slots =
        .ok (slots.map (Option.map (fun x =>
          formatTs u (x + zoff * ticksPerSecond u) ++
            (if tz = "UTC" then "Z" else zoneSuffix zoff))))) ∧
    timestampCastExec (fun z => if z = "UTC" then some 0
        else if z = "+05:30" then some 19800 else none) .second ""
        [some 1609459200] = .ok [some "2021-01-01 00:00:00"] ∧
    timestampCastExec (fun z => if z = "UTC" then some 0
        else if z = "+05:30" then some 19800 else none) .second "UTC"
        [some 1609459200] = .ok [some "2021-01-01 00:00:00Z"] ∧
    timestampCastExec (fun z => if z = "UTC" then some 0
        else if z = "+05:30" then some 19800 else none) .second "+05:30"
        [some 1609459200] = .ok [some "2021-01-01 05:30:00+0530"] := by
  refine ⟨?_, ?_, ?_, ?_, ?_⟩
  · intro h
    simp [timestampCastExec, h]
  · intro h1 h2
    simp [timestampCastExec, h1, h2]
  · rfl
  · rfl
  · rfl

/-- Witness for `c8_timestamp_format`: the no-zone and UTC branches
applied at the epoch instant. -/
theorem c8_timestamp_format_witness :
    timestampCastExec (fun _ => some 0) .second "" [some 0] =
      .ok [some (formatTs .second 0)] ∧
    timestampCastExec (fun z => if z = "UTC" then some 0 else none) .second "UTC"
        [some 0] = .ok [some (formatTs .second 0 ++ "Z")] := by
  constructor
  · exact (c8_timestamp_format (fun _ => some 0) .second "" [some 0] 0).1 rfl
  · have h := (c8_timestamp_format (fun z => if z = "UTC" then some 0 else none)
      .second "UTC" [some 0] 0).2.1 (by decide) (by decide)
    rw [h]
    rfl

-- ----------------------------------------------------------------------
-- C9: null propagation

/-- `NumericToStringCastFunctor::Exec` (shared shape of the scalar-to-text
renderers): `VisitArraySpanInline` appends `formatter(v)` for every valid
slot and appends null for every null slot.  The second component
instruments the conversion with the list of values the injected formatter
was invoked on, in order. -/
def numericToString {α : Type} (formatter : α → String) :
    List (Option α) → List (Option String) × List α
  | [] => ([], [])
  | none :: rest =>
    let r := numericToString formatter rest
    (none :: r.1, r.2)
  | some x :: rest =>
    let r := numericToString formatter rest
    (some (formatter x) :: r.1, x :: r.2)

theorem numericToString_spec {α : Type} (formatter : α → String) :
    ∀ slots : List (Option α),
      (numericToString formatter slots).1 = slots.map (Option.map formatter) ∧
      (numericToString formatter slots).2 = slots.filterMap id := by
  intro slots
  induction slots with
  | nil => exact ⟨rfl, rfl⟩
  | cons hd tl ih =>
    cases hd
    · exact ⟨by simp [numericToString, ih.1], by simp [numericToString, ih.2]⟩
    · exact ⟨by simp [numericToString, ih.1], by simp [numericToString, ih.2]⟩

theorem voRec_null_offset (wide : Bool) (bufs : List (List Byte)) :
    ∀ (pairs : List (Bool × BinaryView)) (pre : List Byte) (i : Nat),
      i < pairs.length →
      (pairs.getD i (true, BinaryView.inlined [])).1 = false →
      (castOffVal wide pre.length :: (voRec wide bufs pairs pre).2).getD (i + 1) 0 =
        (castOffVal wide pre.length :: (voRec wide bufs pairs pre).2).getD i 0 := by
  intro pairs
  induction pairs with
  | nil =>
    intro pre i hi
    simp at hi
  | cons p rest ih =>
    intro pre i hi hnull
    obtain ⟨b, w⟩ := p
    cases i with
    | zero =>
      have hb : b = false := by simpa using hnull
      subst hb
      rw [voRec_cons_false_2]
      rfl
    | succ n =>
      have hn : n < rest.length := by simpa using hi
      have hnull' : (rest.getD n (true, BinaryView.inlined [])).1 = false := by
        simpa using hnull
      cases b
      · rw [voRec_cons_false_2]
        show (castOffVal wide pre.length ::
            (voRec wide bufs rest pre).2).getD (n + 1) 0 =
          (castOffVal wide pre.length :: (voRec wide bufs rest pre).2).getD n 0
        exact ih pre n hn hnull'
      · rw [voRec_cons_true_2]
        conv_lhs => rw [List.getD_cons_succ]
        conv_rhs => rw [List.getD_cons_succ]
        exact ih (pre ++ w.resolve bufs) n hn hnull'

theorem viewToOffset_null_repeats (wide : Bool) (va : ViewArray) (i : Nat)
    (hv : va.views.length = va.validity.length) (hi : i < va.validity.length)
    (hnull : va.validity.getD i false = false) :
    (viewToOffset wide va).offsets.val.getD (i + 1) 0 =
      (viewToOffset wide va).offsets.val.getD i 0 := by
  have hlz : (va.validity.zip va.views).length = va.validity.length := by
    rw [List.length_zip, hv, Nat.min_self]
  have hzi : ((va.validity.zip va.views).getD i (true, BinaryView.inlined [])).1
      = false := by
    rw [List.getD_eq_getElem _ _ (by omega), List.getElem_zip]
    rw [List.getD_eq_getElem _ _ hi] at hnull
    exact hnull
  have h := voRec_null_offset wide (va.dataBufs.map BufRef.val)
    (va.validity.zip va.views) [] i (by omega) hzi
  have hzero : (0 : Int) = castOffVal wide (List.length ([] : List Byte)) := by
    cases wide <;> decide
  simp only [viewToOffset, BufRef.val]
  rw [← hzero] at h
  exact h

theorem offsetViews_null :
    ∀ (v : List Bool) (off : List Int) (data : List Byte) (i : Nat),
      i < v.length → off.length = v.length + 1 → v.getD i false = false →
      (offsetViews v off data).getD i (BinaryView.inlined []) =
        BinaryView.inlined [] := by
  intro v
  induction v with
  | nil =>
    intro off data i hi
    simp at hi
  | cons b bs ih =>
    intro off data i hi hlen hnull
    rcases off with _ | ⟨a, _ | ⟨c, off'⟩⟩
    · simp at hlen
    · simp at hlen
    · cases i with
      | zero =>
        have hb : b = false := by simpa using hnull
        subst hb
        rfl
      | succ n =>
        show (offsetViews bs (c :: off') data).getD n (BinaryView.inlined []) =
          BinaryView.inlined []
        exact ih (c :: off') data n (by simpa using hi) (by simpa using hlen)
          (by simpa using hnull)

/-- C9 (amended): in the slot-by-slot conversions a null source slot
yields a null destination slot, the formatter/validator is never invoked
for it, and it contributes no data bytes — in view -> offset a null slot
contributes only a repeated offset, in the renderers the formatter is
invoked exactly on the valid values, in offset -> view a null slot keeps
its zeroed (empty inline) view, the UTF-8 guard skips null slots, and
binary -> fixed appends null with no width check.  The fixed -> offset
pair propagates nulls to the validity but, unlike the rest, assigns every
slot (null included) a `width`-byte span and copies the whole data buffer
(see the counterexample). -/
theorem c9_amended {α : Type} (formatter : α → String) (slots : List (Option α))
    (wide : Bool) (va : ViewArray) (i : Nat) (v : List Bool) (off : List Int)
    (data : List Byte) (srcName dstName : String) (width aoff : Nat)
    (vf : List Bool) (dataf : List Byte) (slotsB : List (Option (List Byte))) :
    ((viewToOffset wide va).validity = va.validity) ∧
    (va.views.length = va.validity.length → i < va.validity.length →
      va.validity.getD i false = false →
      (viewToOffset wide va).offsets.val.getD (i + 1) 0 =
        (viewToOffset wide va).offsets.val.getD i 0) ∧
    ((numericToString formatter slots).1 = slots.map (Option.map formatter) ∧
      (numericToString formatter slots).2 = slots.filterMap id) ∧
    (i < v.length → off.length = v.length + 1 → v.getD i false = false →
      (offsetViews v off data).getD i (BinaryView.inlined []) =
        BinaryView.inlined []) ∧
    (utf8GuardSlots (none :: slotsB) = utf8GuardSlots slotsB) ∧
    (binaryToFixed width srcName dstName (none :: slotsB) =
      (binaryToFixed width srcName dstName slotsB).map (fun r => none :: r)) ∧
    (∀ out, fixedToOffset wide width aoff vf dataf srcName dstName = .ok out →
      out.validity = vf) := by
  refine ⟨rfl, ?_, numericToString_spec formatter slots, ?_, rfl, rfl, ?_⟩
  · intro hv hi hnull
    exact viewToOffset_null_repeats wide va i hv hi hnull
  · intro hi hlen hnull
    exact offsetViews_null v off data i hi hlen hnull
  · intro out hout
    unfold fixedToOffset at hout
    split at hout
    · cases hout
    · injection hout with h
      subst h
      rfl

/-- Witness for `c9_amended`: a 1-slot all-null view array round-trips to
a repeated offset (zero-length span), and the instrumented renderer
invokes the formatter only on the single valid value of `[some 5, none]`. -/
theorem c9_amended_witness :
    (viewToOffset false ⟨[false], [BinaryView.inlined []], []⟩).offsets.val.getD 1 0 =
      (viewToOffset false ⟨[false], [BinaryView.inlined []], []⟩).offsets.val.getD 0 0 ∧
    (numericToString (fun n : Nat => toString n) [some 5, none]).2 = [5] := by
  have h := c9_amended (fun n : Nat => toString n) [some 5, none] false
    ⟨[false], [BinaryView.inlined []], []⟩ 0 [] [] [] "" "" 1 0 [] [] []
  refine ⟨h.2.1 rfl (by decide) rfl, ?_⟩
  rw [h.2.2.1.2]
  rfl

end ArrowCast
